import Mathlib

/-!
Verification of the chunked long-audio transcription orchestrator
(`AudioTranscriber` in `src/transcript/speechtotext.py`).

The embedding models:
  * samples and seconds as rationals (Python floats are treated as exact
    rationals at the values of interest);
  * Python `int(...)` as truncation toward zero (`pyInt`);
  * the `while start < len(audio_data)` generator loop of `chunk_audio` as a
    fuel-indexed step function `chunkLoopFuel` returning `none` when the fuel
    is exhausted (so `none` for every fuel witnesses divergence of the loop);
  * the external audio decoder (`librosa.load`) and the external inference
    pipeline (`self.pipe`, wrapped by `transcribe_batch`) as opaque
    parameters `load` and `backend` returning `Except`;
  * Python exceptions as the type `PyErr`; the malformed handler
    `except Exception as e: logging.error()` at the end of
    `transcribe_audio` — a call to `logging.error` missing its required
    `msg` argument — is modelled by mapping any escaping error to
    `PyErr.typeError`, since that handler itself raises `TypeError` and the
    original exception is not re-raised.
-/

/-- Python exception kinds relevant to the pipeline: a failure of the audio
decoder, a failure of the inference backend, and the `TypeError` produced by
calling `logging.error()` with no arguments. -/
inductive PyErr : Type
  | audioLoadError : PyErr
  | inferenceError : PyErr
  | typeError : PyErr
deriving DecidableEq, Repr

/-- Python `int(x)`: truncation toward zero (floor for non-negative values,
ceiling for negative ones). -/
def pyInt (q : ℚ) : ℤ := if 0 ≤ q then ⌊q⌋ else ⌈q⌉

/-- Module constant `SAMPLE_RATE = 16000` of `speechtotext.py`. -/
def SAMPLE_RATE : ℚ := 16000

/-- Configuration state stored by `AudioTranscriber.__init__`: the chunking,
overlap and batching parameters.  The constructor performs no validation of
any of them.  `__init__` always sets `self.sample_rate = SAMPLE_RATE`; the
model and device fields play no role in the orchestration logic and are
omitted. -/
structure AudioTranscriber where
  chunk_length_seconds : ℚ := 30
  overlap_seconds : ℚ := 2
  batch_size : ℕ := 8
  sample_rate : ℚ := SAMPLE_RATE
deriving DecidableEq, Repr

/-- Value `chunk_length_samples = int(self.chunk_length_seconds * self.sample_rate)`
computed at the top of `chunk_audio`. -/
def chunkLengthSamples (t : AudioTranscriber) : ℤ :=
  pyInt (t.chunk_length_seconds * t.sample_rate)

/-- Value `overlap_samples = int(self.overlap_seconds * self.sample_rate)`
computed at the top of `chunk_audio`. -/
def overlapSamples (t : AudioTranscriber) : ℤ :=
  pyInt (t.overlap_seconds * t.sample_rate)

/-- The `while start < len(audio_data)` loop of `chunk_audio`, emitting the
half-open windows `(start, end)` of the yielded slices
`audio_data[start:end]`:

    start = 0
    while start < len(audio_data):
        end = min(start + chunk_length_samples, len(audio_data))
        chunk = audio_data[start:end]
        yield chunk
        if end == len(audio_data):
            break
        start += chunk_length_samples - overlap_samples

`L` is `chunk_length_samples`, `s` the increment
`chunk_length_samples - overlap_samples`, `n` is `len(audio_data)`. The loop
need not terminate (the increment may be non-positive), so the model is
indexed by fuel, `none` meaning the loop has not finished within that many
iterations; `chunkLoopFuel L s n start fuel = none` for every `fuel` means
the Python loop diverges. -/
def chunkLoopFuel (L s n : ℤ) : ℤ → ℕ → Option (List (ℤ × ℤ))
  | _, 0 => none
  | start, fuel + 1 =>
    if start < n then
      if min (start + L) n = n then
        some [(start, n)]
      else
        (chunkLoopFuel L s n (start + s) fuel).map
          (fun rest => (start, min (start + L) n) :: rest)
    else
      some []

/-- Method `chunk_audio`, as the list of windows `(start, end)` of the
yielded chunks (given enough fuel): it derives `chunk_length_samples` and
`overlap_samples` from the stored configuration and runs the loop from
`start = 0` over a waveform of length `n`. -/
def chunk_audio (t : AudioTranscriber) (n : ℤ) (fuel : ℕ) :
    Option (List (ℤ × ℤ)) :=
  chunkLoopFuel (chunkLengthSamples t)
    (chunkLengthSamples t - overlapSamples t) n 0 fuel

/-- Python slice `w[start:end]` for `0 ≤ start ≤ end ≤ len w`, extracting the
samples of a chunk window from the waveform. -/
def pySlice (w : List ℚ) (se : ℤ × ℤ) : List ℚ :=
  (w.drop se.1.toNat).take (se.2 - se.1).toNat

/-- The batching loop of `transcribe_audio` over the already-produced chunk
sequence:

    for chunk in audio_chunks_generator:
        batch_chunks.append(chunk.copy())
        if len(batch_chunks) == self.batch_size:
            transcriptions = self.transcribe_batch(batch_chunks)
            all_transcriptions.extend(transcriptions)
            batch_chunks = []
    if batch_chunks:
        transcriptions = self.transcribe_batch(batch_chunks)
        all_transcriptions.extend(transcriptions)

`backend` is `transcribe_batch` (which forwards to the external pipeline and
re-raises its errors unchanged), `B` is `self.batch_size`, the second
argument is `batch_chunks`, the third `all_transcriptions`. -/
def batchLoop (backend : List (List ℚ) → Except PyErr (List String)) (B : ℕ) :
    List (List ℚ) → List (List ℚ) → List String → Except PyErr (List String)
  | [], buf, acc =>
    if buf.isEmpty then .ok acc
    else
      match backend buf with
      | .ok ts => .ok (acc ++ ts)
      | .error e => .error e
  | c :: rest, buf, acc =>
    if (buf ++ [c]).length = B then
      match backend (buf ++ [c]) with
      | .ok ts => batchLoop backend B rest [] (acc ++ ts)
      | .error e => .error e
    else
      batchLoop backend B rest (buf ++ [c]) acc

/-- Method `transcribe_audio`: load the audio (the external decoder's result
is the parameter `load`), chunk it, run the batching loop, and join the
fragments with `" ".join(...)`.  The whole body is wrapped in
`try: ... except Exception as e: logging.error()`; the handler calls
`logging.error` without its required `msg` argument, which raises
`TypeError` and does not re-raise the original exception, so every escaping
error surfaces as `PyErr.typeError`.  The result is `none` when the chunking
loop does not finish within `fuel` iterations. -/
def transcribe_audio (t : AudioTranscriber) (load : Except PyErr (List ℚ))
    (backend : List (List ℚ) → Except PyErr (List String)) (fuel : ℕ) :
    Option (Except PyErr String) :=
  match load with
  | .error _ => some (.error .typeError)
  | .ok audio_data =>
    match chunk_audio t (audio_data.length : ℤ) fuel with
    | none => none
    | some windows =>
      match batchLoop backend t.batch_size (windows.map (pySlice audio_data)) [] [] with
      | .error _ => some (.error .typeError)
      | .ok frags => some (.ok (String.intercalate " " frags))

/-- Grouping of the chunk stream into the successive argument lists of the
`transcribe_batch` calls: starting from a partially filled buffer `buf`, each
group closes as soon as it reaches `B` elements, and a final non-empty
partial buffer forms a last group.  This is the observable call pattern of
`batchLoop`, proved equivalent below. -/
def groups (B : ℕ) (buf : List (List ℚ)) : List (List ℚ) → List (List (List ℚ))
  | [] => if buf.isEmpty then [] else [buf]
  | c :: rest =>
    if (buf ++ [c]).length = B then (buf ++ [c]) :: groups B [] rest
    else groups B (buf ++ [c]) rest

/-- Sequencing of the backend over a list of batches, stopping at the first
error (the call pattern of `transcribe_batch` inside `transcribe_audio`). -/
def mapBackend (backend : List (List ℚ) → Except PyErr (List String)) :
    List (List (List ℚ)) → Except PyErr (List (List String))
  | [] => .ok []
  | g :: gs =>
    match backend g with
    | .error e => .error e
    | .ok t =>
      match mapBackend backend gs with
      | .error e => .error e
      | .ok ts => .ok (t :: ts)

/-- Configuration used by the concrete examples of the specification: window
sizes derive to 30 samples with a 10-sample overlap (window length 3/1600 s,
overlap 1/1600 s at the fixed 16 kHz rate), with `batch_size = 2`. -/
def exampleConfig : AudioTranscriber :=
  { chunk_length_seconds := 3 / 1600, overlap_seconds := 1 / 1600, batch_size := 2 }

/-- Invalid configuration: the overlap equals the window length (3 samples
each, stride 0). -/
def invalidConfig : AudioTranscriber :=
  { chunk_length_seconds := 3 / 16000, overlap_seconds := 3 / 16000 }

/-! ### General facts about ceilings of rational quotients -/

theorem ceil_div_le_one {a b : ℚ} (hb : 0 < b) (h : a ≤ b) : ⌈a / b⌉ ≤ 1 := by
  rw [Int.ceil_le]
  push_cast
  rw [div_le_one hb]
  exact h

theorem one_le_ceil_div {a b : ℚ} (hb : 0 < b) (h : 0 < a) : 1 ≤ ⌈a / b⌉ := by
  have : (0 : ℤ) < ⌈a / b⌉ := by
    rw [Int.lt_ceil]
    push_cast
    exact div_pos h hb
  omega

theorem ceil_div_add_self {a b : ℚ} (hb : b ≠ 0) : ⌈(a + b) / b⌉ = ⌈a / b⌉ + 1 := by
  rw [add_div, div_self hb, Int.ceil_add_one]

/-! ### Unfolding lemmas for the chunking loop -/

theorem chunkLoopFuel_zero (L s n start : ℤ) : chunkLoopFuel L s n start 0 = none := rfl

theorem chunkLoopFuel_succ (L s n start : ℤ) (fuel : ℕ) :
    chunkLoopFuel L s n start (fuel + 1) =
      if start < n then
        if min (start + L) n = n then
          some [(start, n)]
        else
          (chunkLoopFuel L s n (start + s) fuel).map
            (fun rest => (start, min (start + L) n) :: rest)
      else
        some [] := rfl

/-- Observation used throughout: when the loop takes its else-branch (the
emitted window does not reach the end of the waveform), the window really is
`[start, start + L)` and `start + L < n`. -/
theorem min_ne_right {start L n : ℤ} (hmin : min (start + L) n ≠ n) :
    start + L < n ∧ min (start + L) n = start + L := by
  rcases lt_or_le (start + L) n with h1 | h1
  · exact ⟨h1, min_eq_left h1.le⟩
  · exact absurd (min_eq_right h1) hmin

/-- Every window emitted by the loop starts at the loop's current `start`. -/
theorem chunkLoop_head (L s n : ℤ) :
    ∀ (fuel : ℕ) (start : ℤ) (cs : List (ℤ × ℤ)),
      chunkLoopFuel L s n start fuel = some cs →
      ∀ c ∈ cs.head?, c.1 = start := by
  intro fuel
  cases fuel with
  | zero => intro start cs h; simp [chunkLoopFuel_zero] at h
  | succ fuel =>
    intro start cs h
    rw [chunkLoopFuel_succ] at h
    split_ifs at h with hstart hmin
    · cases h; simp
    · obtain ⟨rest, _, hcs⟩ := Option.map_eq_some'.mp h
      subst hcs
      simp
    · cases h; simp

/-- Consecutive windows overlap by exactly `L - s` samples: each window's end
minus the overlap is the next window's start. -/
theorem chunkLoop_chain (L s O n : ℤ) (hO : O = L - s) :
    ∀ (fuel : ℕ) (start : ℤ) (cs : List (ℤ × ℤ)),
      chunkLoopFuel L s n start fuel = some cs →
      cs.Chain' (fun a b => a.2 - O = b.1) := by
  subst hO
  intro fuel
  induction fuel with
  | zero => intro start cs h; simp [chunkLoopFuel_zero] at h
  | succ fuel ih =>
    intro start cs h
    rw [chunkLoopFuel_succ] at h
    split_ifs at h with hstart hmin
    · cases h; simp
    · obtain ⟨rest, hrest, hcs⟩ := Option.map_eq_some'.mp h
      subst hcs
      refine List.chain'_cons'.mpr ⟨?_, ih _ _ hrest⟩
      intro b hb
      have hb1 : b.1 = start + s := chunkLoop_head L s n fuel (start + s) rest hrest b hb
      have hminL := (min_ne_right hmin).2
      rw [hminL, hb1]
      ring
    · cases h; simp

/-- Every sample position from the loop's current `start` up to the end of
the waveform lies inside at least one emitted window (no sample is skipped),
provided the increment does not exceed the window length (`s ≤ L`). -/
theorem chunkLoop_cover (L s n : ℤ) (hsL : s ≤ L) :
    ∀ (fuel : ℕ) (start : ℤ) (cs : List (ℤ × ℤ)),
      chunkLoopFuel L s n start fuel = some cs →
      ∀ j : ℤ, start ≤ j → j < n → ∃ c ∈ cs, c.1 ≤ j ∧ j < c.2 := by
  intro fuel
  induction fuel with
  | zero => intro start cs h; simp [chunkLoopFuel_zero] at h
  | succ fuel ih =>
    intro start cs h j hj1 hj2
    rw [chunkLoopFuel_succ] at h
    split_ifs at h with hstart hmin
    · cases h
      exact ⟨(start, n), by simp, hj1, hj2⟩
    · obtain ⟨rest, hrest, hcs⟩ := Option.map_eq_some'.mp h
      subst hcs
      obtain ⟨hLn, hminL⟩ := min_ne_right hmin
      by_cases hjL : j < start + L
      · exact ⟨(start, min (start + L) n), by simp, by rw [hminL]; exact ⟨hj1, hjL⟩⟩
      · obtain ⟨c, hc, hcj⟩ := ih (start + s) rest hrest j (by omega) hj2
        exact ⟨c, List.mem_cons_of_mem _ hc, hcj⟩
    · omega

/-- When the loop is entered (`start < n`), the very last emitted window ends
exactly at the end of the waveform, provided the increment does not exceed
the window length (`s ≤ L`). -/
theorem chunkLoop_last (L s n : ℤ) (hsL : s ≤ L) :
    ∀ (fuel : ℕ) (start : ℤ) (cs : List (ℤ × ℤ)),
      chunkLoopFuel L s n start fuel = some cs → start < n →
      ∃ a, cs.getLast? = some (a, n) := by
  intro fuel
  induction fuel with
  | zero => intro start cs h; simp [chunkLoopFuel_zero] at h
  | succ fuel ih =>
    intro start cs h hstart
    rw [chunkLoopFuel_succ] at h
    rw [if_pos hstart] at h
    split_ifs at h with hmin
    · cases h; exact ⟨start, rfl⟩
    · obtain ⟨rest, hrest, hcs⟩ := Option.map_eq_some'.mp h
      subst hcs
      obtain ⟨hLn, _⟩ := min_ne_right hmin
      obtain ⟨a, ha⟩ := ih (start + s) rest hrest (by omega)
      cases rest with
      | nil => simp at ha
      | cons r rs => exact ⟨a, by rw [List.getLast?_cons_cons]; exact ha⟩

/-- Every emitted window is non-empty and no longer than `L` samples, and
every window other than the last is exactly `L` samples long. -/
theorem chunkLoop_lengths (L s n : ℤ) (hL : 1 ≤ L) :
    ∀ (fuel : ℕ) (start : ℤ) (cs : List (ℤ × ℤ)),
      chunkLoopFuel L s n start fuel = some cs →
      (∀ c ∈ cs, 0 < c.2 - c.1 ∧ c.2 - c.1 ≤ L) ∧
      (∀ c ∈ cs.dropLast, c.2 - c.1 = L) := by
  intro fuel
  induction fuel with
  | zero => intro start cs h; simp [chunkLoopFuel_zero] at h
  | succ fuel ih =>
    intro start cs h
    rw [chunkLoopFuel_succ] at h
    split_ifs at h with hstart hmin
    · cases h
      constructor
      · intro c hc
        simp at hc
        subst hc
        have : start + L ≥ n ∨ start + L < n := by omega
        have hn : n ≤ start + L := by
          rcases this with h1 | h1
          · omega
          · rw [min_eq_left h1.le] at hmin; omega
        exact ⟨by show 0 < n - start; omega, by show n - start ≤ L; omega⟩
      · intro c hc; simp at hc
    · obtain ⟨rest, hrest, hcs⟩ := Option.map_eq_some'.mp h
      subst hcs
      obtain ⟨hLn, hminL⟩ := min_ne_right hmin
      obtain ⟨ih1, ih2⟩ := ih _ _ hrest
      constructor
      · intro c hc
        rcases List.mem_cons.mp hc with rfl | hc
        · rw [hminL]
          exact ⟨by show 0 < start + L - start; omega,
            by show start + L - start ≤ L; omega⟩
        · exact ih1 c hc
      · intro c hc
        cases rest with
        | nil => simp at hc
        | cons r rs =>
          rw [List.dropLast_cons₂] at hc
          rcases List.mem_cons.mp hc with rfl | hc
          · rw [hminL]; simp
          · exact ih2 c hc
    · cases h
      exact ⟨by intro c hc; simp at hc, by intro c hc; simp at hc⟩

/-- Number of windows emitted from the loop position `start` (once the loop
has been entered): the ceiling of the remaining samples past the first
window's overlap region, divided by the stride, but at least one window. -/
theorem chunkLoop_count (L s n : ℤ) (hs1 : 1 ≤ s) (hsL : s ≤ L) :
    ∀ (fuel : ℕ) (start : ℤ) (cs : List (ℤ × ℤ)),
      chunkLoopFuel L s n start fuel = some cs → start < n →
      (cs.length : ℤ) = max 1 ⌈((n - start - (L - s) : ℤ) : ℚ) / ((s : ℤ) : ℚ)⌉ := by
  intro fuel
  induction fuel with
  | zero => intro start cs h; simp [chunkLoopFuel_zero] at h
  | succ fuel ih =>
    intro start cs h hstart
    have hsQ : (0 : ℚ) < ((s : ℤ) : ℚ) := by exact_mod_cast hs1.trans_lt' (by omega)
    rw [chunkLoopFuel_succ, if_pos hstart] at h
    split_ifs at h with hmin
    · cases h
      have hn : n ≤ start + L := by
        rcases lt_or_le (start + L) n with h1 | h1
        · rw [min_eq_left h1.le] at hmin; omega
        · exact h1
      have hle : ((n - start - (L - s) : ℤ) : ℚ) ≤ ((s : ℤ) : ℚ) := by
        exact_mod_cast (by omega : n - start - (L - s) ≤ s)
      have := ceil_div_le_one hsQ hle
      simp only [List.length_cons, List.length_nil]
      omega
    · obtain ⟨rest, hrest, hcs⟩ := Option.map_eq_some'.mp h
      subst hcs
      obtain ⟨hLn, _⟩ := min_ne_right hmin
      have hrec := ih _ _ hrest (by omega)
      have hA : n - (start + s) - (L - s) = (n - start - (L - s)) - s := by ring
      rw [hA] at hrec
      have hpos : (0 : ℚ) < ((n - start - (L - s) - s : ℤ) : ℚ) := by
        exact_mod_cast (by omega : (0 : ℤ) < n - start - (L - s) - s)
      have h1 : 1 ≤ ⌈((n - start - (L - s) - s : ℤ) : ℚ) / ((s : ℤ) : ℚ)⌉ :=
        one_le_ceil_div hsQ hpos
      have hstep : ⌈((n - start - (L - s) : ℤ) : ℚ) / ((s : ℤ) : ℚ)⌉ =
          ⌈((n - start - (L - s) - s : ℤ) : ℚ) / ((s : ℤ) : ℚ)⌉ + 1 := by
        have : ((n - start - (L - s) : ℤ) : ℚ) =
            ((n - start - (L - s) - s : ℤ) : ℚ) + ((s : ℤ) : ℚ) := by push_cast; ring
        rw [this, ceil_div_add_self hsQ.ne']
      simp only [List.length_cons, Nat.cast_add, Nat.cast_one]
      omega

/-- With a positive increment the loop finishes within `(n - start) + 1`
iterations: the generator is finite. -/
theorem chunkLoop_total (L s n : ℤ) (hs : 1 ≤ s) :
    ∀ (fuel : ℕ) (start : ℤ), (n - start).toNat < fuel →
      ∃ cs, chunkLoopFuel L s n start fuel = some cs := by
  intro fuel
  induction fuel with
  | zero => intro start h; omega
  | succ fuel ih =>
    intro start hfuel
    rw [chunkLoopFuel_succ]
    by_cases hstart : start < n
    · rw [if_pos hstart]
      by_cases hmin : min (start + L) n = n
      · rw [if_pos hmin]; exact ⟨_, rfl⟩
      · rw [if_neg hmin]
        obtain ⟨cs, hcs⟩ := ih (start + s) (by omega)
        exact ⟨_, by rw [hcs]; rfl⟩
    · rw [if_neg hstart]; exact ⟨[], rfl⟩

/-- With a non-positive increment and a waveform longer than one window, the
loop never reaches the end of the waveform: it runs out of any amount of
fuel, i.e. the Python generator diverges. -/
theorem chunkLoop_diverges (L s n : ℤ) (hs : s ≤ 0) (hL : 0 ≤ L) (hn : L < n) :
    ∀ (fuel : ℕ) (start : ℤ), start ≤ 0 →
      chunkLoopFuel L s n start fuel = none := by
  intro fuel
  induction fuel with
  | zero => intro start _; rfl
  | succ fuel ih =>
    intro start hstart
    rw [chunkLoopFuel_succ]
    have h1 : start < n := by omega
    have h2 : start + L < n := by omega
    rw [if_pos h1, if_neg (by rw [min_eq_left h2.le]; omega)]
    rw [ih (start + s) (by omega)]
    rfl

/-! ### The batching loop: call pattern and grouping facts -/

theorem groups_join (B : ℕ) :
    ∀ (cs buf : List (List ℚ)), (groups B buf cs).flatten = buf ++ cs := by
  intro cs
  induction cs with
  | nil =>
    intro buf
    cases buf <;> simp [groups]
  | cons c rest ih =>
    intro buf
    rw [groups]
    split_ifs with h
    · simp [ih]
    · rw [ih]; simp

theorem groups_ne_nil (B : ℕ) (cs buf : List (List ℚ)) (h : cs ≠ []) :
    groups B buf cs ≠ [] := by
  intro hcon
  have := groups_join B cs buf
  rw [hcon] at this
  simp at this
  exact h this.2

/-- Number of batches: the ceiling of the total number of chunks (buffered
plus still to come) divided by the batch size. -/
theorem groups_length (B : ℕ) :
    ∀ (cs buf : List (List ℚ)), buf.length < B →
      ((groups B buf cs).length : ℤ) =
        ⌈((buf.length + cs.length : ℕ) : ℚ) / (B : ℚ)⌉ := by
  intro cs
  induction cs with
  | nil =>
    intro buf hbuf
    have hBQ : (0 : ℚ) < (B : ℚ) := by exact_mod_cast (by omega : 0 < B)
    cases buf with
    | nil => simp [groups]
    | cons b bs =>
      have h1 : (1 : ℤ) = ⌈(((b :: bs).length + 0 : ℕ) : ℚ) / (B : ℚ)⌉ := by
        refine le_antisymm ?_ ?_
        · apply one_le_ceil_div hBQ
          exact_mod_cast (by simp : 0 < (b :: bs).length + 0)
        · apply ceil_div_le_one hBQ
          exact_mod_cast (by simpa using hbuf.le : (b :: bs).length + 0 ≤ B)
      simpa [groups] using h1
  | cons c rest ih =>
    intro buf hbuf
    have hBQ : (0 : ℚ) < (B : ℚ) := by exact_mod_cast (by omega : 0 < B)
    rw [groups]
    split_ifs with h
    · have hlen : buf.length + 1 = B := by simpa using h
      have h2 := ih [] (by simp; omega)
      simp only [List.length_nil, Nat.zero_add] at h2
      have harg : ((buf.length + (c :: rest).length : ℕ) : ℚ) =
          ((rest.length : ℕ) : ℚ) + (B : ℚ) := by
        push_cast
        simp only [List.length_cons]
        push_cast [← hlen]
        ring
      rw [harg, ceil_div_add_self hBQ.ne']
      simp only [List.length_cons, Nat.cast_add, Nat.cast_one]
      omega
    · have hlen : (buf ++ [c]).length < B := by
        have : (buf ++ [c]).length = buf.length + 1 := by simp
        omega
      have h3 := ih (buf ++ [c]) hlen
      have harg : (buf ++ [c]).length + rest.length = buf.length + (c :: rest).length := by
        simp; omega
      rw [harg] at h3
      exact h3

/-- Every batch except possibly the last contains exactly `B` chunks. -/
theorem groups_dropLast (B : ℕ) :
    ∀ (cs buf : List (List ℚ)), buf.length < B →
      ∀ g ∈ (groups B buf cs).dropLast, g.length = B := by
  intro cs
  induction cs with
  | nil =>
    intro buf _ g hg
    cases buf <;> simp [groups] at hg
  | cons c rest ih =>
    intro buf hbuf g hg
    rw [groups] at hg
    split_ifs at hg with h
    · have hlen : buf.length + 1 = B := by simpa using h
      rcases hrest : groups B [] rest with _ | ⟨g0, gs⟩
      · rw [hrest] at hg; simp at hg
      · rw [hrest, List.dropLast_cons₂] at hg
        rcases List.mem_cons.mp hg with rfl | hg2
        · simp; omega
        · rw [← hrest] at hg2
          exact ih [] (by simp; omega) g hg2
    · have hlen : (buf ++ [c]).length < B := by
        have : (buf ++ [c]).length = buf.length + 1 := by simp
        omega
      exact ih (buf ++ [c]) hlen g hg

/-- The final batch contains `total mod B` chunks, or `B` when `B` divides
the total number of chunks. -/
theorem groups_last (B : ℕ) :
    ∀ (cs buf : List (List ℚ)), buf.length < B → buf.length + cs.length ≠ 0 →
      ∀ g ∈ (groups B buf cs).getLast?,
        g.length = if (buf.length + cs.length) % B = 0 then B
                   else (buf.length + cs.length) % B := by
  intro cs
  induction cs with
  | nil =>
    intro buf hbuf htot g hg
    cases buf with
    | nil => simp at htot
    | cons b bs =>
      simp only [groups, List.isEmpty_cons, Bool.false_eq_true, if_false] at hg
      simp only [List.getLast?_singleton, Option.mem_def, Option.some.injEq] at hg
      subst hg
      simp only [List.length_nil, Nat.add_zero]
      have hmod : (b :: bs).length % B = (b :: bs).length := Nat.mod_eq_of_lt hbuf
      rw [if_neg (by rw [hmod]; simp), hmod]
  | cons c rest ih =>
    intro buf hbuf htot g hg
    rw [groups] at hg
    split_ifs at hg with h
    · have hlen : buf.length + 1 = B := by simpa using h
      rcases List.eq_nil_or_concat rest with rfl | hne
      · simp only [groups, List.isEmpty_nil, if_true] at hg
        simp only [List.getLast?_singleton, Option.mem_def, Option.some.injEq] at hg
        subst hg
        have htotB : buf.length + (c :: ([] : List (List ℚ))).length = B := by
          simp; omega
        rw [htotB, Nat.mod_self, if_pos rfl]
        simp; omega
      · have hrne : rest ≠ [] := by rcases hne with ⟨l, a, rfl⟩; simp
        have hgne : groups B [] rest ≠ [] := groups_ne_nil B rest [] hrne
        rcases hrest : groups B [] rest with _ | ⟨g0, gs⟩
        · exact absurd hrest hgne
        · rw [hrest, List.getLast?_cons_cons] at hg
          rw [← hrest] at hg
          have := ih [] (by simp; omega)
            (by simpa [List.length_eq_zero] using hrne) g hg
          simp only [List.length_nil, Nat.zero_add] at this
          have hmod : (buf.length + (c :: rest).length) % B = rest.length % B := by
            have : buf.length + (c :: rest).length = B + rest.length := by simp; omega
            rw [this, Nat.add_mod_left]
          rw [hmod]
          exact this
    · have hlen : (buf ++ [c]).length < B := by
        have : (buf ++ [c]).length = buf.length + 1 := by simp
        omega
      have htot2 : (buf ++ [c]).length + rest.length ≠ 0 := by simp
      have := ih (buf ++ [c]) hlen htot2 g hg
      have harg : (buf ++ [c]).length + rest.length = buf.length + (c :: rest).length := by
        simp; omega
      rw [harg] at this
      exact this

/-- The batching loop performs exactly the `transcribe_batch` calls described
by `groups`, in order, appending the concatenated results to `acc`; the
first failing call aborts the loop with its error. -/
theorem batchLoop_eq_groups (backend : List (List ℚ) → Except PyErr (List String))
    (B : ℕ) :
    ∀ (cs buf : List (List ℚ)) (acc : List String),
      batchLoop backend B cs buf acc =
        match mapBackend backend (groups B buf cs) with
        | .error e => .error e
        | .ok ts => .ok (acc ++ ts.flatten) := by
  intro cs
  induction cs with
  | nil =>
    intro buf acc
    cases buf with
    | nil => simp [batchLoop, groups, mapBackend]
    | cons b bs =>
      simp only [batchLoop, groups, List.isEmpty_cons, Bool.false_eq_true, if_false,
        mapBackend]
      cases backend (b :: bs) with
      | error e => rfl
      | ok ts => simp [mapBackend]
  | cons c rest ih =>
    intro buf acc
    simp only [batchLoop, groups]
    split_ifs with h
    · cases hb : backend (buf ++ [c]) with
      | error e => simp [mapBackend, hb]
      | ok t =>
        show batchLoop backend B rest [] (acc ++ t) = _
        rw [ih]
        simp only [mapBackend, hb]
        cases mapBackend backend (groups B [] rest) with
        | error e => rfl
        | ok ts => simp
    · exact ih (buf ++ [c]) acc

/-- A backend that transcribes each chunk of a batch independently (one
fragment per chunk, in order) succeeds on every batch sequence, producing
the per-batch fragment lists. -/
theorem mapBackend_ok (backend : List (List ℚ) → Except PyErr (List String))
    (frag : List ℚ → String) (hb : ∀ b, backend b = .ok (b.map frag)) :
    ∀ gs, mapBackend backend gs = .ok (gs.map (fun g => g.map frag)) := by
  intro gs
  induction gs with
  | nil => rfl
  | cons g gs ih => rw [mapBackend, hb, ih]; rfl

/-- The batching loop depends on the backend only through its input-output
behaviour. -/
theorem batchLoop_congr (b1 b2 : List (List ℚ) → Except PyErr (List String))
    (hb : ∀ x, b1 x = b2 x) (B : ℕ) :
    ∀ (cs buf : List (List ℚ)) (acc : List String),
      batchLoop b1 B cs buf acc = batchLoop b2 B cs buf acc := by
  intro cs
  induction cs with
  | nil => intro buf acc; simp only [batchLoop, hb]
  | cons c rest ih =>
    intro buf acc
    simp only [batchLoop, hb]
    split_ifs with h
    · cases b2 (buf ++ [c]) with
      | ok ts => exact ih [] (acc ++ ts)
      | error e => rfl
    · exact ih (buf ++ [c]) acc

/-- Truncation toward zero of a non-negative value (the floor) agrees with
round-to-nearest exactly when the fractional part is below one half. -/
theorem floor_eq_round_iff {q : ℚ} : ⌊q⌋ = round q ↔ Int.fract q < 1 / 2 := by
  rw [round_eq]
  constructor
  · intro h
    by_contra hge
    push_neg at hge
    have hfr := Int.floor_add_fract q
    have h2 : ⌊q⌋ + 1 ≤ ⌊q + 1 / 2⌋ := Int.le_floor.mpr (by push_cast; linarith)
    omega
  · intro h
    have hfr := Int.floor_add_fract q
    have h0 : (0 : ℚ) ≤ Int.fract q := Int.fract_nonneg q
    have := (Int.floor_eq_iff).mpr
      (⟨by linarith, by linarith⟩ :
        (↑⌊q⌋ ≤ q + 1 / 2 ∧ q + 1 / 2 < ⌊q⌋ + 1))
    omega

/-! ### Evaluation of the derived window sizes at the example configurations -/

theorem exampleConfig_chunk : chunkLengthSamples exampleConfig = 30 := by
  norm_num [exampleConfig, chunkLengthSamples, pyInt, SAMPLE_RATE]

theorem exampleConfig_overlap : overlapSamples exampleConfig = 10 := by
  norm_num [exampleConfig, overlapSamples, pyInt, SAMPLE_RATE]

theorem invalidConfig_chunk : chunkLengthSamples invalidConfig = 3 := by
  norm_num [invalidConfig, chunkLengthSamples, pyInt, SAMPLE_RATE]

theorem invalidConfig_overlap : overlapSamples invalidConfig = 3 := by
  norm_num [invalidConfig, overlapSamples, pyInt, SAMPLE_RATE]

theorem defaultConfig_chunk : chunkLengthSamples {} = 480000 := by
  norm_num [chunkLengthSamples, pyInt, SAMPLE_RATE]

theorem defaultConfig_overlap : overlapSamples {} = 32000 := by
  norm_num [overlapSamples, pyInt, SAMPLE_RATE]

/-- The concrete 70-sample scenario of the specification: windows
[0:30], [20:50], [40:70]. -/
theorem chunk_audio_example70 :
    chunk_audio exampleConfig 70 71 = some [(0, 30), (20, 50), (40, 70)] := by
  rw [chunk_audio, exampleConfig_chunk, exampleConfig_overlap]
  decide

/-- A one-sample waveform under the default configuration yields the single
window [0:1]. -/
theorem chunk_audio_default_one :
    chunk_audio ({} : AudioTranscriber) 1 1 = some [(0, 1)] := by
  rw [chunk_audio, defaultConfig_chunk, defaultConfig_overlap]
  decide

/-! ### Claims -/

/-- C1: for every waveform length `n` and every valid stored configuration
(`overlap_samples ≥ 0` and stride `≥ 1`), the windows produced by
`chunk_audio` cover the waveform exactly once ignoring overlaps: each
window's end minus `overlap_samples` is the next window's start, the last
window ends exactly at `n` whenever the waveform is non-empty, and every
sample index lies inside at least one window; in particular a 70-sample
waveform with 30-sample windows and 10-sample overlap yields exactly the
windows [0:30], [20:50], [40:70]. -/
theorem chunk_audio_covers_waveform (t : AudioTranscriber) (n : ℤ) (fuel : ℕ)
    (cs : List (ℤ × ℤ))
    (hO : 0 ≤ overlapSamples t)
    (_hs : 1 ≤ chunkLengthSamples t - overlapSamples t)
    (h : chunk_audio t n fuel = some cs) :
    cs.Chain' (fun a b => a.2 - overlapSamples t = b.1) ∧
    (0 < n → ∃ a, cs.getLast? = some (a, n)) ∧
    (∀ j : ℤ, 0 ≤ j → j < n → ∃ c ∈ cs, c.1 ≤ j ∧ j < c.2) ∧
    chunk_audio exampleConfig 70 71 = some [(0, 30), (20, 50), (40, 70)] := by
  rw [chunk_audio] at h
  refine ⟨?_, ?_, ?_, chunk_audio_example70⟩
  · exact chunkLoop_chain _ _ _ _ (by omega) fuel 0 cs h
  · intro hn
    exact chunkLoop_last _ _ _ (by omega) fuel 0 cs h hn
  · intro j hj1 hj2
    exact chunkLoop_cover _ _ _ (by omega) fuel 0 cs h j (by omega) hj2

theorem chunk_audio_covers_waveform_witness :
    ∃ a, ([((0:ℤ), (30:ℤ)), (20, 50), (40, 70)]).getLast? = some (a, 70) :=
  (chunk_audio_covers_waveform exampleConfig 70 71 [(0, 30), (20, 50), (40, 70)]
    (by simp [exampleConfig_overlap])
    (by simp [exampleConfig_chunk, exampleConfig_overlap])
    chunk_audio_example70).2.1 (by decide)

/-- C2: chunk counts of `chunk_audio` under a valid configuration: an empty
waveform yields zero chunks (without raising), a non-empty waveform no
longer than one chunk yields exactly one chunk, and a longer waveform
yields `ceil((n - overlap_samples) / stride)` chunks. -/
theorem chunk_audio_chunk_count (t : AudioTranscriber) (n : ℤ) (fuel : ℕ)
    (cs : List (ℤ × ℤ))
    (hO : 0 ≤ overlapSamples t)
    (hs : 1 ≤ chunkLengthSamples t - overlapSamples t)
    (h : chunk_audio t n fuel = some cs) :
    (n = 0 → cs.length = 0) ∧
    (0 < n → n ≤ chunkLengthSamples t → cs.length = 1) ∧
    (chunkLengthSamples t < n →
      (cs.length : ℤ) =
        ⌈((n - overlapSamples t : ℤ) : ℚ) /
          ((chunkLengthSamples t - overlapSamples t : ℤ) : ℚ)⌉) := by
  rw [chunk_audio] at h
  have hsQ : (0 : ℚ) < ((chunkLengthSamples t - overlapSamples t : ℤ) : ℚ) := by
    exact_mod_cast (by omega : (0 : ℤ) < chunkLengthSamples t - overlapSamples t)
  refine ⟨?_, ?_, ?_⟩
  · rintro rfl
    cases fuel with
    | zero => simp [chunkLoopFuel_zero] at h
    | succ fuel =>
      rw [chunkLoopFuel_succ, if_neg (by omega)] at h
      cases h; rfl
  · intro hn1 hn2
    have hcount := chunkLoop_count _ _ _ hs (by omega) fuel 0 cs h (by omega)
    have hexp : n - 0 - (chunkLengthSamples t - (chunkLengthSamples t - overlapSamples t)) =
        n - overlapSamples t := by ring
    rw [hexp] at hcount
    have hle : ((n - overlapSamples t : ℤ) : ℚ) ≤
        ((chunkLengthSamples t - overlapSamples t : ℤ) : ℚ) := by
      exact_mod_cast (by omega : n - overlapSamples t ≤ chunkLengthSamples t - overlapSamples t)
    have hceil := ceil_div_le_one hsQ hle
    omega
  · intro hn
    have hcount := chunkLoop_count _ _ _ hs (by omega) fuel 0 cs h (by omega)
    have hexp : n - 0 - (chunkLengthSamples t - (chunkLengthSamples t - overlapSamples t)) =
        n - overlapSamples t := by ring
    rw [hexp] at hcount
    have hpos : (0 : ℚ) < ((n - overlapSamples t : ℤ) : ℚ) := by
      exact_mod_cast (by omega : (0 : ℤ) < n - overlapSamples t)
    have hceil := one_le_ceil_div hsQ hpos
    omega

theorem chunk_audio_chunk_count_witness :
    (([((0:ℤ), (30:ℤ)), (20, 50), (40, 70)].length : ℕ) : ℤ) =
      ⌈((70 - overlapSamples exampleConfig : ℤ) : ℚ) /
        ((chunkLengthSamples exampleConfig - overlapSamples exampleConfig : ℤ) : ℚ)⌉ :=
  (chunk_audio_chunk_count exampleConfig 70 71 [(0, 30), (20, 50), (40, 70)]
    (by simp [exampleConfig_overlap])
    (by simp [exampleConfig_chunk, exampleConfig_overlap])
    chunk_audio_example70).2.2 (by simp [exampleConfig_chunk])

/-- C10: every chunk yielded by `chunk_audio` under a valid configuration is
non-empty and no longer than `chunk_length_samples`, and every chunk except
possibly the last is exactly `chunk_length_samples` long. -/
theorem chunk_audio_chunk_lengths (t : AudioTranscriber) (n : ℤ) (fuel : ℕ)
    (cs : List (ℤ × ℤ))
    (hO : 0 ≤ overlapSamples t)
    (hs : 1 ≤ chunkLengthSamples t - overlapSamples t)
    (h : chunk_audio t n fuel = some cs) :
    (∀ c ∈ cs, 0 < c.2 - c.1 ∧ c.2 - c.1 ≤ chunkLengthSamples t) ∧
    (∀ c ∈ cs.dropLast, c.2 - c.1 = chunkLengthSamples t) := by
  rw [chunk_audio] at h
  exact chunkLoop_lengths _ _ _ (by omega) fuel 0 cs h

theorem chunk_audio_chunk_lengths_witness :
    ((20:ℤ), (50:ℤ)).2 - ((20:ℤ), (50:ℤ)).1 = chunkLengthSamples exampleConfig :=
  (chunk_audio_chunk_lengths exampleConfig 70 71 [(0, 30), (20, 50), (40, 70)]
    (by simp [exampleConfig_overlap])
    (by simp [exampleConfig_chunk, exampleConfig_overlap])
    chunk_audio_example70).2 (20, 50) (by decide)

/-- C8: under a valid configuration (positive stride) the chunking loop
terminates for every waveform: `n + 1` iterations always suffice, so
`chunk_audio` produces a finite sequence of chunks, the last of which ends
at the waveform's end (claim C1). -/
theorem chunk_audio_finite (t : AudioTranscriber) (n : ℤ)
    (hs : 1 ≤ chunkLengthSamples t - overlapSamples t) :
    ∃ cs, chunk_audio t n (n.toNat + 1) = some cs := by
  rw [chunk_audio]
  exact chunkLoop_total _ _ _ hs (n.toNat + 1) 0 (by omega)

theorem chunk_audio_finite_witness :
    ∃ cs, chunk_audio exampleConfig 70 ((70:ℤ).toNat + 1) = some cs :=
  chunk_audio_finite exampleConfig 70
    (by simp [exampleConfig_chunk, exampleConfig_overlap])

/-- C4 (amended): the code performs no validation of the chunking
configuration and defines no `ConfigurationError`; with
`overlap_samples ≥ chunk_length_samples` (stride ≤ 0), `chunk_audio` still
proceeds: a non-empty waveform no longer than one chunk yields one chunk
normally, and a longer waveform makes the loop run forever (no error is
ever raised). -/
theorem chunk_audio_invalid_config_behavior (t : AudioTranscriber)
    (hs : chunkLengthSamples t - overlapSamples t ≤ 0)
    (hL : 0 ≤ chunkLengthSamples t) (n : ℤ) :
    (0 < n → n ≤ chunkLengthSamples t → ∀ fuel, 1 ≤ fuel →
      chunk_audio t n fuel = some [(0, n)]) ∧
    (chunkLengthSamples t < n → ∀ fuel, chunk_audio t n fuel = none) := by
  constructor
  · intro hn1 hn2 fuel hfuel
    cases fuel with
    | zero => omega
    | succ fuel =>
      rw [chunk_audio, chunkLoopFuel_succ, if_pos (by omega : (0:ℤ) < n),
        if_pos (by rw [min_eq_right (by omega : n ≤ 0 + chunkLengthSamples t)])]
  · intro hn fuel
    rw [chunk_audio]
    exact chunkLoop_diverges _ _ _ hs hL hn fuel 0 le_rfl

theorem chunk_audio_invalid_config_behavior_witness :
    chunk_audio invalidConfig 5 9 = none :=
  (chunk_audio_invalid_config_behavior invalidConfig
    (by simp [invalidConfig_chunk, invalidConfig_overlap])
    (by simp [invalidConfig_chunk]) 5).2 (by simp [invalidConfig_chunk]) 9

/-- C4 counterexample: a configuration whose `overlap_seconds` equals
`chunk_length_seconds` (stride 0, invalid per the specification) is accepted
without any error and `chunk_audio` emits a chunk for a short waveform,
contradicting "fails fast with a ConfigurationError ... such a configuration
never proceeds to emit chunks". -/
theorem chunk_audio_invalid_config_emits :
    chunkLengthSamples invalidConfig ≤ overlapSamples invalidConfig ∧
    chunk_audio invalidConfig 2 1 = some [(0, 2)] := by
  refine ⟨by simp [invalidConfig_chunk, invalidConfig_overlap], ?_⟩
  rw [chunk_audio, invalidConfig_chunk, invalidConfig_overlap]
  decide

/-- C3 (code bug): any failure escaping the body of `transcribe_audio` — an
`AudioLoadError` from `load_audio`, or an `InferenceError` raised by
`transcribe_batch` during any (full or final partial) batch — aborts the
call and no transcript is returned, with fragments from earlier successful
batches discarded; but the malformed handler
`except Exception as e: logging.error()` raises a `TypeError` in place of
the original exception, so the error reaching the caller is a `TypeError`,
not the original error kind as the specification requires. -/
theorem transcribe_audio_error_masked (t : AudioTranscriber)
    (load : Except PyErr (List ℚ))
    (backend : List (List ℚ) → Except PyErr (List String)) (fuel : ℕ) :
    (∀ e, load = .error e →
      transcribe_audio t load backend fuel = some (.error .typeError)) ∧
    (∀ w windows e, load = .ok w →
      chunk_audio t (w.length : ℤ) fuel = some windows →
      batchLoop backend t.batch_size (windows.map (pySlice w)) [] [] = .error e →
      transcribe_audio t load backend fuel = some (.error .typeError)) ∧
    PyErr.typeError ≠ PyErr.audioLoadError ∧
    PyErr.typeError ≠ PyErr.inferenceError := by
  refine ⟨?_, ?_, by decide, by decide⟩
  · rintro e rfl; rfl
  · rintro w windows e rfl hc hb
    simp only [transcribe_audio, hc, hb]

theorem transcribe_audio_error_masked_witness :
    transcribe_audio {} (.error .audioLoadError)
      (fun _ => .error .inferenceError) 1 = some (.error .typeError) ∧
    transcribe_audio {} (.ok [0]) (fun _ => .error .inferenceError) 1 =
      some (.error .typeError) :=
  ⟨(transcribe_audio_error_masked {} (.error .audioLoadError)
      (fun _ => .error .inferenceError) 1).1 .audioLoadError rfl,
   (transcribe_audio_error_masked {} (.ok [0])
      (fun _ => .error .inferenceError) 1).2.1 [0] [(0, 1)] .inferenceError rfl
     chunk_audio_default_one rfl⟩

/-- C5: for `N` chunks and `batch_size = B ≥ 1`, the batching loop of
`transcribe_audio` submits to `transcribe_batch` exactly the batches listed
by `groups`: `ceil(N / B)` calls, every batch but the last of exactly `B`
chunks in emission order, the last of `N mod B` chunks (or `B` when `B`
divides `N`), the buffer restarting empty after each full batch and the
remaining partial batch submitted at the end; concatenating the batches
restores the chunk sequence. -/
theorem transcribe_audio_batch_grouping
    (backend : List (List ℚ) → Except PyErr (List String)) (B : ℕ) (hB : 1 ≤ B)
    (cs : List (List ℚ)) :
    batchLoop backend B cs [] [] =
      (match mapBackend backend (groups B [] cs) with
       | .error e => .error e
       | .ok ts => .ok ts.flatten) ∧
    ((groups B [] cs).length : ℤ) = ⌈((cs.length : ℕ) : ℚ) / (B : ℚ)⌉ ∧
    (∀ g ∈ (groups B [] cs).dropLast, g.length = B) ∧
    (cs ≠ [] → ∀ g ∈ (groups B [] cs).getLast?,
      g.length = if cs.length % B = 0 then B else cs.length % B) ∧
    (groups B [] cs).flatten = cs := by
  refine ⟨?_, ?_, ?_, ?_, ?_⟩
  · rw [batchLoop_eq_groups]
    cases mapBackend backend (groups B [] cs) with
    | error e => rfl
    | ok ts => simp
  · have := groups_length B cs [] (by simp; omega)
    simpa using this
  · exact groups_dropLast B cs [] (by simp; omega)
  · intro hne g hg
    have := groups_last B cs [] (by simp; omega)
      (by simpa [List.length_eq_zero] using hne) g hg
    simpa using this
  · simpa using groups_join B cs []

theorem transcribe_audio_batch_grouping_witness :
    ((groups 2 [] [[(1:ℚ)], [2], [3]]).length : ℤ) =
      ⌈(([[(1:ℚ)], [2], [3]].length : ℕ) : ℚ) / ((2:ℕ) : ℚ)⌉ :=
  (transcribe_audio_batch_grouping (fun b => .ok (b.map (fun _ => ""))) 2
    (by decide) [[1], [2], [3]]).2.1

/-- C6: when every batch succeeds and the backend returns one fragment per
chunk in order, `transcribe_audio` returns exactly the fragments of all
chunks, in chunk-emission order, joined with single spaces. -/
theorem transcribe_audio_space_joined (t : AudioTranscriber) (w : List ℚ)
    (backend : List (List ℚ) → Except PyErr (List String))
    (frag : List ℚ → String) (fuel : ℕ) (windows : List (ℤ × ℤ))
    (hchunk : chunk_audio t (w.length : ℤ) fuel = some windows)
    (hb : ∀ b, backend b = .ok (b.map frag)) :
    transcribe_audio t (.ok w) backend fuel =
      some (.ok (String.intercalate " " ((windows.map (pySlice w)).map frag))) := by
  have hmap := mapBackend_ok backend frag hb
    (groups t.batch_size [] (windows.map (pySlice w)))
  have hjoin : ((groups t.batch_size [] (windows.map (pySlice w))).map
      (fun g => g.map frag)).flatten = (windows.map (pySlice w)).map frag := by
    rw [← List.map_flatten, groups_join]
    simp
  simp only [transcribe_audio, hchunk]
  rw [batchLoop_eq_groups, hmap]
  simp [hjoin]

theorem transcribe_audio_space_joined_witness :
    transcribe_audio exampleConfig (.ok (List.replicate 70 (0:ℚ)))
      (fun b => .ok (b.map (fun c => toString c.length))) 71 =
      some (.ok (String.intercalate " "
        (([((0:ℤ), (30:ℤ)), (20, 50), (40, 70)].map
          (pySlice (List.replicate 70 (0:ℚ)))).map (fun c => toString c.length)))) :=
  transcribe_audio_space_joined exampleConfig (List.replicate 70 (0:ℚ))
    (fun b => .ok (b.map (fun c => toString c.length)))
    (fun c => toString c.length) 71 [(0, 30), (20, 50), (40, 70)]
    chunk_audio_example70 (fun _ => rfl)

/-- C9: the pipeline is deterministic: the result of `transcribe_audio`
depends only on the loaded waveform, the stored configuration and the
input-output behaviour of the inference backend — runs with the same load
result and extensionally equal (deterministic) backends produce identical
transcripts, with no nondeterministic reordering anywhere. -/
theorem transcribe_audio_deterministic (t : AudioTranscriber)
    (load : Except PyErr (List ℚ))
    (b1 b2 : List (List ℚ) → Except PyErr (List String)) (fuel : ℕ)
    (hb : ∀ x, b1 x = b2 x) :
    transcribe_audio t load b1 fuel = transcribe_audio t load b2 fuel := by
  cases load with
  | error e => rfl
  | ok w =>
    simp only [transcribe_audio]
    cases chunk_audio t (w.length : ℤ) fuel with
    | none => rfl
    | some windows =>
      simp only [batchLoop_congr b1 b2 hb]

theorem transcribe_audio_deterministic_witness :
    transcribe_audio {} (.ok [0]) (fun b => .ok (b.map (fun _ => "hi"))) 1 =
      transcribe_audio {} (.ok [0]) (fun b => .ok (List.map (fun _ => "hi") b)) 1 :=
  transcribe_audio_deterministic {} (.ok [0])
    (fun b => .ok (b.map (fun _ => "hi")))
    (fun b => .ok (List.map (fun _ => "hi") b)) 1 (fun _ => rfl)

/-- C7 (amended): `chunk_audio` computes its window sizes with Python
`int(...)`, truncation toward zero — for non-negative configurations the
floor of `seconds * sample_rate`, not round-to-nearest; truncation agrees
with `round` exactly when the fractional part of the product is below one
half (so they differ on products such as 1.6). -/
theorem samples_truncated_not_rounded (t : AudioTranscriber)
    (h1 : 0 ≤ t.chunk_length_seconds) (h2 : 0 ≤ t.overlap_seconds)
    (h3 : 0 ≤ t.sample_rate) :
    chunkLengthSamples t = ⌊t.chunk_length_seconds * t.sample_rate⌋ ∧
    overlapSamples t = ⌊t.overlap_seconds * t.sample_rate⌋ ∧
    (chunkLengthSamples t = round (t.chunk_length_seconds * t.sample_rate) ↔
      Int.fract (t.chunk_length_seconds * t.sample_rate) < 1 / 2) ∧
    (overlapSamples t = round (t.overlap_seconds * t.sample_rate) ↔
      Int.fract (t.overlap_seconds * t.sample_rate) < 1 / 2) := by
  have e1 : chunkLengthSamples t = ⌊t.chunk_length_seconds * t.sample_rate⌋ := by
    rw [chunkLengthSamples, pyInt, if_pos (mul_nonneg h1 h3)]
  have e2 : overlapSamples t = ⌊t.overlap_seconds * t.sample_rate⌋ := by
    rw [overlapSamples, pyInt, if_pos (mul_nonneg h2 h3)]
  refine ⟨e1, e2, ?_, ?_⟩
  · rw [e1]; exact floor_eq_round_iff
  · rw [e2]; exact floor_eq_round_iff

theorem samples_truncated_not_rounded_witness :
    chunkLengthSamples {} =
      ⌊({} : AudioTranscriber).chunk_length_seconds *
        ({} : AudioTranscriber).sample_rate⌋ :=
  (samples_truncated_not_rounded {} (by decide) (by decide) (by decide)).1

/-- C7 counterexample: with `overlap_seconds = 1/10000` the product with the
16 kHz rate is 1.6 samples; the code's `int()` truncation stores 1 sample
whereas the specification's round-to-nearest would give 2. -/
theorem samples_round_counterexample :
    overlapSamples { overlap_seconds := 1 / 10000 } = 1 ∧
    round (((1 : ℚ) / 10000) * SAMPLE_RATE) = 2 ∧
    overlapSamples { overlap_seconds := 1 / 10000 } ≠
      round (((1 : ℚ) / 10000) * SAMPLE_RATE) := by
  refine ⟨?_, ?_, ?_⟩
  · norm_num [overlapSamples, pyInt, SAMPLE_RATE]
  · norm_num [round_eq, SAMPLE_RATE]
  · norm_num [overlapSamples, pyInt, round_eq, SAMPLE_RATE]
